import Mathlib

/-!
Verification development for the gym-leads acquisition-and-reconciliation
pipeline.  The definitions below are a shallow embedding of the Python
sources:

* `src/scrapers/base.py` — the `Lead` record, `normalize_phone`, and the
  retry loop in `BaseScraper.run`;
* `src/utils/dedup.py` — `_normalize_state`, `_normalize`, `_is_name_match`,
  `_merge_leads` and `deduplicate` (including an embedding of the
  `difflib.SequenceMatcher.ratio` similarity used by `_is_name_match`);
* `src/scrape.py` — the exit-status control flow of `main`.

Machine text is modelled as Lean `String` / `List Char`; Python string
methods (`lower`, `strip`, `split`, regex substitution) are embedded as
explicit recursions on character lists.  Character classes follow the
ASCII reading of the regexes, which covers every input the program
produces.  Python floats that only ever hold exact decimal constants
(the `0.85` similarity threshold) are embedded as rationals.
-/

/-- The `Lead` dataclass from `src/scrapers/base.py` (all fields default
to the empty string there; `type` is the free-text category and `source`
the comma-joined provenance). -/
structure Lead where
  name : String := ""
  address : String := ""
  city : String := ""
  state : String := ""
  phone : String := ""
  website : String := ""
  type : String := ""
  source : String := ""
deriving DecidableEq, Repr

/-- ASCII whitespace, the characters the regex class `\s` and Python
`str.strip` treat as space in the inputs at hand. -/
def isSpaceChar (c : Char) : Bool :=
  c == ' ' || c == '\t' || c == '\n' || c == '\r' || c == '\x0b' || c == '\x0c'

/-- Python `str.strip()`: drop leading and trailing whitespace. -/
def pyStrip (s : List Char) : List Char :=
  ((s.dropWhile isSpaceChar).reverse.dropWhile isSpaceChar).reverse

/-- `re.sub(r"\D", "", raw)` from `normalize_phone`: keep only digits. -/
def pyDigits (s : List Char) : List Char := s.filter Char.isDigit

/-- The `f"({digits[:3]}) {digits[3:6]}-{digits[6:]}"` rendering in
`normalize_phone`. -/
def formatPhone (ds : List Char) : List Char :=
  '(' :: ds.take 3 ++ [')', ' '] ++ (ds.drop 3).take 3 ++ ['-'] ++ ds.drop 6

/-- `normalize_phone` from `src/scrapers/base.py`, on character lists:
empty input returns empty; extract digits; drop a leading country-code 1
from an 11-digit number; render exactly 10 digits as (XXX) XXX-XXXX;
otherwise return the input unchanged. -/
def normalizePhoneL (raw : List Char) : List Char :=
  if raw = [] then []
  else
    let digits := pyDigits raw
    let digits := if digits.length = 11 ∧ digits.head? = some '1' then digits.tail else digits
    if digits.length ≠ 10 then raw else formatPhone digits

/-- `normalize_phone` on `String`. -/
def normalize_phone (s : String) : String := ⟨normalizePhoneL s.data⟩

/-! ## Retry Wrapper (`BaseScraper.run`, `src/scrapers/base.py`)

One attempt of `self._run_browser()` either returns leads or raises an
exception.  The spec classifies exceptions as transient or not; the
`transient` flag below records that classification.  `run` itself
executes `except Exception`, a catch-all, so the flag is never consulted
by the model of the loop — exactly as in the source. -/

/-- Outcome of a single `_run_browser()` attempt. -/
inductive AttemptResult where
  | ok (leads : List Lead)
  | err (transient : Bool) (msg : String)
deriving DecidableEq

/-- What one `run()` invocation did: the returned leads, how many
attempts were started, and the `time.sleep` delays performed between
attempts, in order. -/
structure RunTrace where
  result : List Lead
  attempts : Nat
  waits : List Nat
deriving DecidableEq, Repr

/-- `max_retries = 3` in `BaseScraper`. -/
def maxRetries : Nat := 3

/-- `backoff_delays = [5, 15, 30]` in `BaseScraper`. -/
def backoffDelays : List Nat := [5, 15, 30]

/-- The body of `run()`s `for attempt in range(self.max_retries)` loop,
recursing over the list of remaining attempt indices.  On success the
loop returns the leads; on an exception it computes
`backoff_delays[min(attempt, len(backoff_delays) - 1)]`, sleeps it when
further attempts remain, and falls through to `return []` after the
final attempt. -/
def runFrom (oracle : Nat → AttemptResult) : List Nat → RunTrace
  | [] => { result := [], attempts := 0, waits := [] }
  | attempt :: rest =>
    match oracle attempt with
    | .ok leads => { result := leads, attempts := 1, waits := [] }
    | .err _ _ =>
      let delay := backoffDelays.getD (min attempt (backoffDelays.length - 1)) 0
      let t := runFrom oracle rest
      { result := t.result
        attempts := t.attempts + 1
        waits := if attempt < maxRetries - 1 then delay :: t.waits else t.waits }

/-- `BaseScraper.run()`: the retry loop over `range(max_retries)`, with
the outcome of each attempt given by `oracle`. -/
def runRetry (oracle : Nat → AttemptResult) : RunTrace :=
  runFrom oracle (List.range maxRetries)

/-! ## CLI control flow (`main`, `src/scrape.py`)

`main` geocodes the city inside `try/except ValueError` and calls
`sys.exit(1)` on failure, before any scraper is dispatched.  With a
resolved location it runs the selected scrapers, concatenates their
leads, and if the aggregate is empty prints "No leads found from any
source." and calls `sys.exit(0)`; otherwise it deduplicates, writes the
CSV and falls off the end of `main` (process exit status 0). -/

/-- The parts of the `geocode_city` result that `main`s control flow
uses (coordinates and URL encodings are only interpolated into
messages). -/
structure GeoData where
  city : String
  state : String
deriving DecidableEq

/-- How a `main` invocation ended. -/
inductive MainOutcome where
  | geoFailure (msg : String)
  | noLeads
  | wrote (uniqueLeads : List Lead)
deriving DecidableEq

/-- Observable result of `main`: the process exit status, which sources
were dispatched to scrapers, and the terminal outcome. -/
structure MainResult where
  exitCode : Nat
  dispatchedSources : List String
  outcome : MainOutcome
deriving DecidableEq

/-! ## Name normalization (`_normalize`, `src/utils/dedup.py`)

`_normalize` lowercases and strips the name, then applies four
`re.sub` passes: whole-word removal of a fixed stop-word list,
removal of `#\w+` tokens, removal of location codes matching
`\b[A-Z]{2}[\.\-][A-Z]{2}[\.\-\w]*` (ignoring case), removal of every
character outside `[a-z0-9\s]`, and finally collapses `\s+` runs to a
single space and strips.  The scanners below walk the string left to
right exactly as `re.sub` does (leftmost, non-overlapping matches,
greedy stars, resuming after each match); each carries a fuel argument
equal to the length of its input, which bounds the recursion — every
step either consumes at least one character or recurses on the tail. -/

/-- Word characters of the regex class `\w` (ASCII reading). -/
def isWordChar (c : Char) : Bool := c.isAlphanum || c == '_'

/-- A `\b` boundary holds to the left of a word character iff the
preceding character (if any) is not a word character. -/
def boundaryL : Option Char → Bool
  | none => true
  | some p => !isWordChar p

/-- A `\b` boundary holds to the right of a word character iff the
following character (if any) is not a word character. -/
def boundaryR : List Char → Bool
  | [] => true
  | d :: _ => !isWordChar d

/-- Scanner for `re.sub(rf"\b{word}\b", "", s)` with a literal `word`
made of word characters; `prev` is the character just before the scan
position in the original string.  The `!w.isEmpty` guard is vacuous for
the non-empty stop words used below. -/
def subWordGo (w : List Char) : Nat → Option Char → List Char → List Char
  | 0, _, s => s
  | _ + 1, _, [] => []
  | fuel + 1, prev, c :: rest =>
    if !w.isEmpty && w.isPrefixOf (c :: rest) && boundaryL prev
        && boundaryR ((c :: rest).drop w.length) then
      subWordGo w fuel (some (w.getLastD c)) ((c :: rest).drop w.length)
    else
      c :: subWordGo w fuel (some c) rest

/-- One stop-word removal pass. -/
def subWord (w : String) (s : List Char) : List Char :=
  subWordGo w.data s.length none s

/-- Scanner for `re.sub(r"#\w+", "", s)`: a `#` followed by at least one
word character deletes the `#` and the maximal word-character run. -/
def subHashGo : Nat → List Char → List Char
  | 0, s => s
  | _ + 1, [] => []
  | fuel + 1, c :: rest =>
    if c == '#' then
      match rest with
      | d :: _ =>
        if isWordChar d then subHashGo fuel (rest.dropWhile isWordChar)
        else c :: subHashGo fuel rest
      | [] => c :: subHashGo fuel rest
    else c :: subHashGo fuel rest

/-- Characters matched by the trailing `[\.\-\w]*` of the location-code
pattern. -/
def isLocTail (c : Char) : Bool := c == '.' || c == '-' || isWordChar c

/-- Try to match `[A-Z]{2}[\.\-][A-Z]{2}[\.\-\w]*` (case-insensitive) at
the head of the list; on success return the remainder after the greedy
match. -/
def locCodeMatch : List Char → Option (List Char)
  | c1 :: c2 :: c3 :: c4 :: c5 :: rest =>
    if c1.isAlpha && c2.isAlpha && (c3 == '.' || c3 == '-') && c4.isAlpha && c5.isAlpha then
      some (rest.dropWhile isLocTail)
    else none
  | _ => none

/-- Scanner for `re.sub(r"\b[A-Z]{2}[\.\-][A-Z]{2}[\.\-\w]*", "", s,
flags=re.IGNORECASE)`.  After a match the scan resumes on the remainder
with `prev` set to the last consumed character. -/
def subLocGo : Nat → Option Char → List Char → List Char
  | 0, _, s => s
  | _ + 1, _, [] => []
  | fuel + 1, prev, c :: rest =>
    if boundaryL prev then
      match locCodeMatch (c :: rest) with
      | some tail =>
        subLocGo fuel (some (((c :: rest).take ((c :: rest).length - tail.length)).getLastD c)) tail
      | none => c :: subLocGo fuel (some c) rest
    else c :: subLocGo fuel (some c) rest

/-- Lowercase ASCII letters, the `a-z` part of the keep class. -/
def isAsciiLower (c : Char) : Bool := 'a' ≤ c && c ≤ 'z'

/-- Scanner for `re.sub(r"\s+", " ", s)`: replace each maximal
whitespace run with one space. -/
def collapseGo : Nat → List Char → List Char
  | 0, s => s
  | _ + 1, [] => []
  | fuel + 1, c :: rest =>
    if isSpaceChar c then ' ' :: collapseGo fuel (rest.dropWhile isSpaceChar)
    else c :: collapseGo fuel rest

/-- The stop-word tuple of `_normalize`, in source order. -/
def stopWords : List String :=
  ["llc", "inc", "the", "gym", "fitness", "studio", "center", "centre"]

/-- `_normalize` from `src/utils/dedup.py`. -/
def normalizeName (name : String) : String :=
  let s := pyStrip (name.data.map Char.toLower)
  let s := stopWords.foldl (fun acc w => subWord w acc) s
  let s := subHashGo s.length s
  let s := subLocGo s.length none s
  let s := s.filter (fun c => isAsciiLower c || c.isDigit || isSpaceChar c)
  ⟨pyStrip (collapseGo s.length s)⟩

/-! ## State normalization (`_normalize_state`, `src/utils/dedup.py`) -/

/-- The `_STATE_ABBREV` table: uppercase abbreviation to lowercase full
name, in source order. -/
def STATE_ABBREV : List (String × String) :=
  [("AL", "alabama"), ("AK", "alaska"), ("AZ", "arizona"), ("AR", "arkansas"),
   ("CA", "california"), ("CO", "colorado"), ("CT", "connecticut"), ("DE", "delaware"),
   ("FL", "florida"), ("GA", "georgia"), ("HI", "hawaii"), ("ID", "idaho"),
   ("IL", "illinois"), ("IN", "indiana"), ("IA", "iowa"), ("KS", "kansas"),
   ("KY", "kentucky"), ("LA", "louisiana"), ("ME", "maine"), ("MD", "maryland"),
   ("MA", "massachusetts"), ("MI", "michigan"), ("MN", "minnesota"), ("MS", "mississippi"),
   ("MO", "missouri"), ("MT", "montana"), ("NE", "nebraska"), ("NV", "nevada"),
   ("NH", "new hampshire"), ("NJ", "new jersey"), ("NM", "new mexico"), ("NY", "new york"),
   ("NC", "north carolina"), ("ND", "north dakota"), ("OH", "ohio"), ("OK", "oklahoma"),
   ("OR", "oregon"), ("PA", "pennsylvania"), ("RI", "rhode island"), ("SC", "south carolina"),
   ("SD", "south dakota"), ("TN", "tennessee"), ("TX", "texas"), ("UT", "utah"),
   ("VT", "vermont"), ("VA", "virginia"), ("WA", "washington"), ("WV", "west virginia"),
   ("WI", "wisconsin"), ("WY", "wyoming"), ("DC", "district of columbia")]

/-- Python `str.upper` / `str.lower` on the ASCII strings at hand. -/
def strUpper (s : String) : String := ⟨s.data.map Char.toUpper⟩

/-- See `strUpper`. -/
def strLower (s : String) : String := ⟨s.data.map Char.toLower⟩

/-- `_STATE_TO_ABBREV = {v: k.lower() for k, v in _STATE_ABBREV.items()}`. -/
def STATE_TO_ABBREV : List (String × String) :=
  STATE_ABBREV.map (fun p => (p.2, strLower p.1))

/-- `_normalize_state`: strip and lowercase; a known abbreviation is
returned lowercased, a known full name is mapped to its lowercase
abbreviation, anything else passes through. -/
def normalizeState (state : String) : String :=
  let s : String := strLower ⟨pyStrip state.data⟩
  if (STATE_ABBREV.lookup (strUpper s)).isSome then strLower s
  else (STATE_TO_ABBREV.lookup s).getD s

/-- The `lead.city.lower().strip()` key used by `deduplicate`. -/
def cityKey (city : String) : String := ⟨pyStrip (strLower city).data⟩

/-! ## Similarity ratio (`difflib.SequenceMatcher.ratio`)

`_is_name_match` calls `SequenceMatcher(None, a, b).ratio()`.  With no
junk function and inputs far below the 200-character autojunk cutoff
(normalized gym names), `find_longest_match` returns the longest common
block, breaking ties towards the block that starts earliest in `a` and
then earliest in `b`; `get_matching_blocks` recurses on the pieces to
the left and right of that block, and `ratio` is `2*M/T` where `M` is
the total matched length and `T` the sum of the lengths (`1.0` when `T`
is `0`).  The embedding computes the same value as an exact rational. -/

/-- Length of the common prefix of two character lists. -/
def commonPrefixLen : List Char → List Char → Nat
  | a :: as, b :: bs => if a = b then commonPrefixLen as bs + 1 else 0
  | _, _ => 0

/-- `find_longest_match` over whole strings: the triple `(i, j, k)` with
`k` the maximal common-block length, and `(i, j)` lexicographically
smallest among blocks of that length.  Scanning `i` then `j` in
ascending order and updating only on a strictly larger `k` realises
exactly that choice. -/
def bestBlock (a b : List Char) : Nat × Nat × Nat :=
  (List.range a.length).foldl (fun best i =>
    (List.range b.length).foldl (fun best j =>
      let k := commonPrefixLen (a.drop i) (b.drop j)
      if k > best.2.2 then (i, j, k) else best) best) (0, 0, 0)

/-- Total matched length over all matching blocks
(`sum(triple[-1] for triple in get_matching_blocks())`).  The fuel is an
upper bound on the recursion depth: every level removes the `k ≥ 1`
characters of the chosen block from both sides. -/
def matchingTotalGo : Nat → List Char → List Char → Nat
  | 0, _, _ => 0
  | fuel + 1, a, b =>
    let t := bestBlock a b
    if t.2.2 = 0 then 0
    else
      matchingTotalGo fuel (a.take t.1) (b.take t.2.1) + t.2.2 +
        matchingTotalGo fuel (a.drop (t.1 + t.2.2)) (b.drop (t.2.1 + t.2.2))

/-- See `matchingTotalGo`. -/
def matchingTotal (a b : List Char) : Nat :=
  matchingTotalGo (a.length + b.length) a b

/-- `SequenceMatcher(None, a, b).ratio()` as an exact rational:
`2*M/T`, or `1` when `T = 0`. -/
def ratioQ (a b : String) : ℚ :=
  if a.length + b.length = 0 then 1
  else mkRat (2 * matchingTotal a.data b.data) (a.length + b.length)

/-- The default `threshold=0.85` of `deduplicate`, as an exact
rational. -/
def dedupThreshold : ℚ := mkRat 85 100

/-- `_is_name_match` from `src/utils/dedup.py`: empty names never
match; otherwise exact equality, similarity ratio at least the
threshold, or the shorter name (at least 4 characters) being a prefix
of the longer one. -/
def isNameMatch (a b : String) (threshold : ℚ) : Bool :=
  if a == "" || b == "" then false
  else if a == b then true
  else if decide (ratioQ a b ≥ threshold) then true
  else
    let sl := if a.length ≤ b.length then (a, b) else (b, a)
    decide (4 ≤ sl.1.length) && sl.1.data.isPrefixOf sl.2.data

/-! ## Merging and deduplication (`_merge_leads`, `deduplicate`) -/

/-- Python `a or b` on strings: the first operand unless it is empty. -/
def pyOr (a b : String) : String := if a = "" then b else a

/-- Python `s.split(",")` on character lists: the pieces between
commas, each possibly empty. -/
def splitCommaGo : List Char → List Char → List (List Char)
  | [], cur => [cur.reverse]
  | c :: rest, cur =>
    if c = ',' then cur.reverse :: splitCommaGo rest []
    else splitCommaGo rest (c :: cur)

/-- `set(s.strip() for s in src.split(","))` — the provenance tags of a
lead, as the list of stripped comma-separated pieces (duplicates are
removed at the union step). -/
def splitTags (s : String) : List String :=
  (splitCommaGo s.data []).map (fun t => ⟨pyStrip t⟩)

/-- Python string comparison on character lists: lexicographic by code
point. -/
def charListLe : List Char → List Char → Bool
  | [], _ => true
  | _ :: _, [] => false
  | a :: as, b :: bs =>
    if a.toNat < b.toNat then true
    else if b.toNat < a.toNat then false
    else charListLe as bs

/-- Python `a <= b` on strings. -/
def strLeB (a b : String) : Bool := charListLe a.data b.data

/-- Ascending insertion into a sorted tag list. -/
def insertTag (x : String) : List String → List String
  | [] => [x]
  | y :: ys => if strLeB x y then x :: y :: ys else y :: insertTag x ys

/-- Insertion sort realising Python `sorted` on strings. -/
def sortTags : List String → List String
  | [] => []
  | x :: xs => insertTag x (sortTags xs)

/-- `sorted(existing_sources | new_sources)` followed by
`", ".join(...)`: the distinct tags of both leads in ascending order.
`List.dedup` removes duplicates and `sortTags` orders them; a sorted
duplicate-free list is determined by its members, so this equals the
Python value. -/
def unionTags (a b : String) : List String :=
  sortTags ((splitTags a ++ splitTags b).dedup)

/-- `_merge_leads` from `src/utils/dedup.py`: keep each of the existing
buckets non-empty fields, fill the rest from the incoming lead, and
join the sorted union of both provenance tag sets. -/
def mergeLeads (existing newLead : Lead) : Lead :=
  { name := pyOr existing.name newLead.name
    address := pyOr existing.address newLead.address
    city := pyOr existing.city newLead.city
    state := pyOr existing.state newLead.state
    phone := pyOr existing.phone newLead.phone
    website := pyOr existing.website newLead.website
    type := pyOr existing.type newLead.type
    source := String.intercalate ", " (unionTags existing.source newLead.source) }

/-- The duplicate test of `deduplicate`s inner loop: same
city key, same normalized state, and `_is_name_match` on the normalized
names (the loop `continue`s when city or state differ). -/
def matchesB (threshold : ℚ) (incoming existing : Lead) : Bool :=
  cityKey incoming.city == cityKey existing.city &&
  normalizeState incoming.state == normalizeState existing.state &&
  isNameMatch (normalizeName incoming.name) (normalizeName existing.name) threshold

/-- The inner `for i, existing in enumerate(unique)` loop of
`deduplicate`: replace the first matching bucket by the merge and stop;
append the lead when no bucket matches. -/
def scanInsert (threshold : ℚ) : List Lead → Lead → List Lead
  | [], x => [x]
  | e :: rest, x =>
    if matchesB threshold x e then mergeLeads e x :: rest
    else e :: scanInsert threshold rest x

/-- `deduplicate` from `src/utils/dedup.py`: fold every lead through
the scan-and-merge loop, starting from an empty bucket list (the
`if not leads: return []` early exit coincides with the fold on `[]`).
The threshold parameter defaults to `0.85` in the source; theorems
about the default pass `dedupThreshold` explicitly. -/
def deduplicate (leads : List Lead) (threshold : ℚ) : List Lead :=
  leads.foldl (scanInsert threshold) []

/-- `main` from `src/scrape.py` as a function of the geocoding result
and of what each selected scraper returns.  `fetch` stands for the
retry-wrapped `scraper.run()` of each source; the executor collects
leads in completion order, which only affects the order of `allLeads`,
not the emptiness test or the exit status. -/
def mainModel (geoRes : Except String GeoData) (sources : List String)
    (fetch : String → List Lead) : MainResult :=
  match geoRes with
  | .error e => { exitCode := 1, dispatchedSources := [], outcome := .geoFailure e }
  | .ok _ =>
    let allLeads := (sources.map fetch).flatten
    if allLeads.isEmpty then
      { exitCode := 0, dispatchedSources := sources, outcome := .noLeads }
    else
      { exitCode := 0, dispatchedSources := sources,
        outcome := .wrote (deduplicate allLeads dedupThreshold) }

/-! ## Lemmas: phone canonicalization -/

/-- The phone rule exactly as the specification states it: extract
digits; drop the leading 1 from an 11-digit number starting with the US
country code; render exactly 10 digits; otherwise return the original
input unchanged. -/
def phoneCanonSpec (raw : List Char) : List Char :=
  let ds := raw.filter Char.isDigit
  let ds := if ds.length = 11 ∧ ds.head? = some '1' then ds.tail else ds
  if ds.length = 10 then formatPhone ds else raw

theorem normalizePhoneL_eq_spec (r : List Char) : normalizePhoneL r = phoneCanonSpec r := by
  by_cases h : r = []
  · subst h; rfl
  · simp only [normalizePhoneL, phoneCanonSpec, if_neg h, pyDigits, ne_eq, ite_not]

theorem digits_of_formatPhone (ds : List Char) (h : ∀ c ∈ ds, Char.isDigit c) :
    pyDigits (formatPhone ds) = ds := by
  have htake : (ds.take 3).filter Char.isDigit = ds.take 3 :=
    List.filter_eq_self.mpr (fun c hc => h c (List.take_subset 3 ds hc))
  have hmid : ((ds.drop 3).take 3).filter Char.isDigit = (ds.drop 3).take 3 :=
    List.filter_eq_self.mpr
      (fun c hc => h c (List.drop_subset 3 ds (List.take_subset 3 (ds.drop 3) hc)))
  have hdrop : (ds.drop 6).filter Char.isDigit = ds.drop 6 :=
    List.filter_eq_self.mpr (fun c hc => h c (List.drop_subset 6 ds hc))
  have hsplit : (ds.drop 3).take 3 ++ ds.drop 6 = ds.drop 3 := by
    have h1 := List.take_append_drop 3 (ds.drop 3)
    rw [List.drop_drop] at h1
    norm_num at h1
    exact h1
  simp only [pyDigits, formatPhone, List.filter_append, List.filter_cons,
    show ('(').isDigit = false from rfl, show (')').isDigit = false from rfl,
    show (' ').isDigit = false from rfl, show ('-').isDigit = false from rfl,
    Bool.false_eq_true, if_false, List.filter_nil, htake, hmid, hdrop,
    List.nil_append, List.append_assoc]
  rw [hsplit, List.take_append_drop]

theorem normalizePhoneL_idem (r : List Char) :
    normalizePhoneL (normalizePhoneL r) = normalizePhoneL r := by
  by_cases hr : r = []
  · subst hr; rfl
  · have hdig : ∀ c ∈ (if (pyDigits r).length = 11 ∧ (pyDigits r).head? = some '1'
        then (pyDigits r).tail else pyDigits r), Char.isDigit c := by
      intro c hc
      by_cases h11 : (pyDigits r).length = 11 ∧ (pyDigits r).head? = some '1'
      · rw [if_pos h11] at hc
        exact List.of_mem_filter (List.mem_of_mem_tail hc)
      · rw [if_neg h11] at hc
        exact List.of_mem_filter hc
    by_cases h10 : (if (pyDigits r).length = 11 ∧ (pyDigits r).head? = some '1'
        then (pyDigits r).tail else pyDigits r).length = 10
    · have hout : normalizePhoneL r = formatPhone (if (pyDigits r).length = 11 ∧
          (pyDigits r).head? = some '1' then (pyDigits r).tail else pyDigits r) := by
        simp only [normalizePhoneL, if_neg hr, ne_eq, ite_not]
        rw [if_pos h10]
      rw [hout]
      generalize hds : (if (pyDigits r).length = 11 ∧ (pyDigits r).head? = some '1'
          then (pyDigits r).tail else pyDigits r) = ds at h10 hdig
      have hne : formatPhone ds ≠ [] := by simp [formatPhone]
      have hdigits : pyDigits (formatPhone ds) = ds := digits_of_formatPhone ds hdig
      have h11 : ¬ (ds.length = 11 ∧ ds.head? = some '1') := by
        intro hc
        rw [h10] at hc
        exact absurd hc.1 (by norm_num)
      simp only [normalizePhoneL, if_neg hne, hdigits, if_neg h11, ne_eq, ite_not]
      rw [if_pos h10]
    · have hout : normalizePhoneL r = r := by
        simp only [normalizePhoneL, if_neg hr, ne_eq, ite_not]
        rw [if_neg h10]
      rw [hout, hout]

/-- C5: `normalize_phone` extracts the digits of its input, drops a
leading US country code 1 from an 11-digit number, renders exactly 10
digits as (XXX) XXX-XXXX, and otherwise returns the original input
unchanged; in particular the three concrete examples from the
specification hold. -/
theorem normalize_phone_matches_spec :
    (∀ s : String, normalize_phone s = ⟨phoneCanonSpec s.data⟩) ∧
    normalize_phone "5712231615" = "(571) 223-1615" ∧
    normalize_phone "+1 571 223 1615" = "(571) 223-1615" ∧
    normalize_phone "123" = "123" := by
  refine ⟨fun s => ?_, by decide, by decide, by decide⟩
  show (⟨normalizePhoneL s.data⟩ : String) = ⟨phoneCanonSpec s.data⟩
  rw [normalizePhoneL_eq_spec]

/-- C6: phone canonicalization is idempotent — applying
`normalize_phone` twice yields the same string as applying it once. -/
theorem normalize_phone_idempotent (s : String) :
    normalize_phone (normalize_phone s) = normalize_phone s := by
  show (⟨normalizePhoneL (⟨normalizePhoneL s.data⟩ : String).data⟩ : String)
      = ⟨normalizePhoneL s.data⟩
  rw [show (⟨normalizePhoneL s.data⟩ : String).data = normalizePhoneL s.data from rfl,
    normalizePhoneL_idem]

/-! ## Lemmas: retry wrapper -/

theorem runRetry_ok0 (oracle : Nat → AttemptResult) (ls : List Lead)
    (h0 : oracle 0 = .ok ls) :
    runRetry oracle = { result := ls, attempts := 1, waits := [] } := by
  simp [runRetry, show List.range maxRetries = [0, 1, 2] from rfl, runFrom, h0]

theorem runRetry_ok1 (oracle : Nat → AttemptResult) (t0 : Bool) (m0 : String) (ls : List Lead)
    (h0 : oracle 0 = .err t0 m0) (h1 : oracle 1 = .ok ls) :
    runRetry oracle = { result := ls, attempts := 2, waits := [5] } := by
  simp [runRetry, show List.range maxRetries = [0, 1, 2] from rfl, runFrom, h0, h1,
    backoffDelays, maxRetries]

theorem runRetry_ok2 (oracle : Nat → AttemptResult) (t0 t1 : Bool) (m0 m1 : String)
    (ls : List Lead) (h0 : oracle 0 = .err t0 m0) (h1 : oracle 1 = .err t1 m1)
    (h2 : oracle 2 = .ok ls) :
    runRetry oracle = { result := ls, attempts := 3, waits := [5, 15] } := by
  simp [runRetry, show List.range maxRetries = [0, 1, 2] from rfl, runFrom, h0, h1, h2,
    backoffDelays, maxRetries]

theorem runRetry_allFail (oracle : Nat → AttemptResult) (t0 t1 t2 : Bool) (m0 m1 m2 : String)
    (h0 : oracle 0 = .err t0 m0) (h1 : oracle 1 = .err t1 m1) (h2 : oracle 2 = .err t2 m2) :
    runRetry oracle = { result := [], attempts := 3, waits := [5, 15] } := by
  simp [runRetry, show List.range maxRetries = [0, 1, 2] from rfl, runFrom, h0, h1, h2,
    backoffDelays, maxRetries]

/-- C7: every invocation makes at most 3 attempts; the waits between
attempts are drawn in order from the schedule [5, 15, 30] through
`backoff_delays[min(attempt, len - 1)]`; and when every attempt fails
the loop returns the empty lead list (no exception escapes: `runRetry`
is a total function into `RunTrace`). -/
theorem retry_budget_and_backoff (oracle : Nat → AttemptResult) :
    (runRetry oracle).attempts ≤ maxRetries ∧
    (runRetry oracle).waits = (List.range ((runRetry oracle).attempts - 1)).map
      (fun i => backoffDelays.getD (min i (backoffDelays.length - 1)) 0) ∧
    ((∀ i, i < maxRetries → ∀ leads, oracle i ≠ .ok leads) →
      (runRetry oracle).result = [] ∧ (runRetry oracle).attempts = maxRetries) := by
  rcases h0 : oracle 0 with ls0 | ⟨t0, m0⟩
  · rw [runRetry_ok0 oracle ls0 h0]
    refine ⟨by norm_num [maxRetries], by norm_num, fun hfail => absurd h0 (hfail 0 (by norm_num [maxRetries]) ls0)⟩
  · rcases h1 : oracle 1 with ls1 | ⟨t1, m1⟩
    · rw [runRetry_ok1 oracle t0 m0 ls1 h0 h1]
      refine ⟨by norm_num [maxRetries], ?_, fun hfail => absurd h1 (hfail 1 (by norm_num [maxRetries]) ls1)⟩
      show [5] = (List.range 1).map (fun i => backoffDelays.getD (min i (backoffDelays.length - 1)) 0)
      decide
    · rcases h2 : oracle 2 with ls2 | ⟨t2, m2⟩
      · rw [runRetry_ok2 oracle t0 t1 m0 m1 ls2 h0 h1 h2]
        refine ⟨by norm_num [maxRetries], ?_, fun hfail => absurd h2 (hfail 2 (by norm_num [maxRetries]) ls2)⟩
        show [5, 15] = (List.range 2).map (fun i => backoffDelays.getD (min i (backoffDelays.length - 1)) 0)
        decide
      · rw [runRetry_allFail oracle t0 t1 t2 m0 m1 m2 h0 h1 h2]
        refine ⟨by norm_num [maxRetries], ?_, fun _ => ⟨rfl, rfl⟩⟩
        show [5, 15] = (List.range 2).map (fun i => backoffDelays.getD (min i (backoffDelays.length - 1)) 0)
        decide

/-- Witness for C7 at a concrete always-failing oracle. -/
theorem retry_budget_and_backoff_witness :
    (runRetry (fun _ => .err true "timeout")).attempts ≤ maxRetries ∧
    (runRetry (fun _ => .err true "timeout")).result = [] ∧
    (runRetry (fun _ => .err true "timeout")).attempts = maxRetries := by
  have h := retry_budget_and_backoff (fun _ => .err true "timeout")
  have h3 := h.2.2 (fun i _ leads hc => AttemptResult.noConfusion hc)
  exact ⟨h.1, h3.1, h3.2⟩

/-- C4 counterexample: an adapter whose every attempt raises a
non-transient (programmer) error is retried anyway — the wrapper makes
all 3 attempts and sleeps the backoff delays instead of terminating
after the first attempt, and its trace is identical to that of a
transient failure, so the failure reason is not distinguishable. -/
theorem retry_fatal_retried_cex :
    (runRetry (fun _ => .err false "TypeError")).attempts = 3 ∧
    (runRetry (fun _ => .err false "TypeError")).waits = [5, 15] ∧
    runRetry (fun _ => .err false "TypeError") = runRetry (fun _ => .err true "TypeError") := by
  have hf := runRetry_allFail (fun _ => .err false "TypeError") false false false
    "TypeError" "TypeError" "TypeError" rfl rfl rfl
  have ht := runRetry_allFail (fun _ => .err true "TypeError") true true true
    "TypeError" "TypeError" "TypeError" rfl rfl rfl
  rw [hf, ht]
  exact ⟨rfl, rfl, rfl⟩

/-- C4 amended: `run` catches every exception alike, so a non-transient
error is retried exactly like a transient one — an adapter whose every
attempt raises a non-transient error consumes the full 3-attempt
budget, sleeps the 5s and 15s backoff delays, returns the empty lead
sequence, and produces a trace identical to the same schedule of
transient failures (no distinguishable failure reason). -/
theorem retry_ignores_classification (oracle : Nat → AttemptResult) (msg : Nat → String)
    (h : ∀ i, oracle i = .err false (msg i)) :
    runRetry oracle = { result := [], attempts := 3, waits := [5, 15] } ∧
    runRetry oracle = runRetry (fun i => .err true (msg i)) := by
  have hf := runRetry_allFail oracle false false false (msg 0) (msg 1) (msg 2)
    (h 0) (h 1) (h 2)
  have ht := runRetry_allFail (fun i => .err true (msg i)) true true true
    (msg 0) (msg 1) (msg 2) rfl rfl rfl
  rw [hf, ht]
  exact ⟨rfl, rfl⟩

/-- Witness for the amended C4 at a concrete oracle. -/
theorem retry_ignores_classification_witness :
    runRetry (fun _ => .err false "boom") = { result := [], attempts := 3, waits := [5, 15] } :=
  (retry_ignores_classification (fun _ => .err false "boom") (fun _ => "boom")
    (fun _ => rfl)).1

/-! ## Lemmas: CLI control flow -/

/-- C8: when location resolution fails, `main` exits with status 1 and
dispatches no adapter; when it succeeds and every selected adapter
contributes zero leads, `main` reports the explicit no-leads outcome
and exits with status 0. -/
theorem main_exit_behavior :
    (∀ (e : String) (sources : List String) (fetch : String → List Lead),
      mainModel (.error e) sources fetch =
        { exitCode := 1, dispatchedSources := [], outcome := .geoFailure e }) ∧
    (∀ (g : GeoData) (sources : List String) (fetch : String → List Lead),
      (∀ s ∈ sources, fetch s = []) →
      mainModel (.ok g) sources fetch =
        { exitCode := 0, dispatchedSources := sources, outcome := .noLeads }) := by
  refine ⟨fun e sources fetch => rfl, fun g sources fetch hempty => ?_⟩
  have hflat : (sources.map fetch).flatten = [] := by
    rw [List.flatten_eq_nil_iff]
    intro l hl
    rcases List.mem_map.mp hl with ⟨s, hs, rfl⟩
    exact hempty s hs
  simp [mainModel, hflat]

/-- Witness for C8 at a concrete failing geocode and a concrete
zero-lead run. -/
theorem main_exit_behavior_witness :
    mainModel (.error "Could not geocode city: Nowhereville") ["mindbody"] (fun _ => []) =
      { exitCode := 1, dispatchedSources := [],
        outcome := .geoFailure "Could not geocode city: Nowhereville" } ∧
    mainModel (.ok { city := "Ashburn", state := "VA" }) ["mindbody", "crossfit"]
        (fun _ => []) =
      { exitCode := 0, dispatchedSources := ["mindbody", "crossfit"],
        outcome := .noLeads } :=
  ⟨main_exit_behavior.1 "Could not geocode city: Nowhereville" ["mindbody"] (fun _ => []),
   main_exit_behavior.2 { city := "Ashburn", state := "VA" } ["mindbody", "crossfit"]
     (fun _ => []) (fun _ _ => rfl)⟩

/-! ## Lemmas: deduplication

The duplicate test of `deduplicate` reads a lead only through its raw
name (via `normalizeName`), its city key and its state key; merging a
matching lead into a bucket preserves those three components, which
drives both the idempotence and the permutation analysis below. -/

/-- The three components of a lead that `matchesB` depends on. -/
def leadKey (e : Lead) : String × String × String :=
  (e.name, cityKey e.city, normalizeState e.state)

/-- `matchesB` expressed through the keys alone. -/
def matchesKey (threshold : ℚ) (kx ke : String × String × String) : Bool :=
  kx.2.1 == ke.2.1 && kx.2.2 == ke.2.2 &&
  isNameMatch (normalizeName kx.1) (normalizeName ke.1) threshold

theorem matchesB_eq_matchesKey (th : ℚ) (x e : Lead) :
    matchesB th x e = matchesKey th (leadKey x) (leadKey e) := rfl

theorem matchesB_congr_incoming (th : ℚ) (x x' e : Lead) (h : leadKey x = leadKey x') :
    matchesB th x e = matchesB th x' e := by
  rw [matchesB_eq_matchesKey, matchesB_eq_matchesKey, h]

theorem matchesB_congr_existing (th : ℚ) (x e e' : Lead) (h : leadKey e = leadKey e') :
    matchesB th x e = matchesB th x e' := by
  rw [matchesB_eq_matchesKey, matchesB_eq_matchesKey, h]

theorem isNameMatch_right_empty (a : String) (th : ℚ) : isNameMatch a "" th = false := by
  simp [isNameMatch]

theorem isNameMatch_left_empty (b : String) (th : ℚ) : isNameMatch "" b th = false := by
  simp [isNameMatch]

theorem normalizeName_empty : normalizeName "" = "" := rfl

theorem matchesB_name_ne (th : ℚ) (x e : Lead) (h : matchesB th x e = true) :
    e.name ≠ "" := by
  intro hn
  have h3 := h
  simp only [matchesB, Bool.and_eq_true] at h3
  have h4 := h3.2
  rw [hn, normalizeName_empty, isNameMatch_right_empty] at h4
  exact Bool.false_ne_true h4

theorem leadKey_mergeLeads (th : ℚ) (x e : Lead) (h : matchesB th x e = true) :
    leadKey (mergeLeads e x) = leadKey e := by
  have h3 := h
  simp only [matchesB, Bool.and_eq_true, beq_iff_eq] at h3
  obtain ⟨⟨hc, hs⟩, _⟩ := h3
  have hname : e.name ≠ "" := matchesB_name_ne th x e h
  simp only [leadKey, mergeLeads, Prod.mk.injEq]
  refine ⟨?_, ?_, ?_⟩
  · simp [pyOr, if_neg hname]
  · by_cases hec : e.city = ""
    · simp [pyOr, hec, hc]
    · simp [pyOr, hec]
  · by_cases hes : e.state = ""
    · simp [pyOr, hes, hs]
    · simp [pyOr, hes]

theorem scanInsert_of_no_match (th : ℚ) (U : List Lead) (x : Lead)
    (h : ∀ e ∈ U, matchesB th x e = false) :
    scanInsert th U x = U ++ [x] := by
  induction U with
  | nil => rfl
  | cons e rest ih =>
    have he : matchesB th x e = false := h e (List.mem_cons_self e rest)
    simp only [scanInsert, he, Bool.false_eq_true, if_false, List.cons_append,
      List.cons.injEq, true_and]
    exact ih (fun e2 he2 => h e2 (List.mem_cons_of_mem e he2))

theorem scanInsert_mem (th : ℚ) (U : List Lead) (x b : Lead)
    (hb : b ∈ scanInsert th U x) :
    b ∈ U ∨ b = x ∨ ∃ e ∈ U, matchesB th x e = true ∧ b = mergeLeads e x := by
  induction U with
  | nil =>
    simp only [scanInsert, List.mem_singleton] at hb
    exact Or.inr (Or.inl hb)
  | cons e rest ih =>
    by_cases hm : matchesB th x e = true
    · rw [show scanInsert th (e :: rest) x = mergeLeads e x :: rest from by
        simp [scanInsert, hm]] at hb
      rcases List.mem_cons.mp hb with hbe | hb2
      · exact Or.inr (Or.inr ⟨e, List.mem_cons_self e rest, hm, hbe⟩)
      · exact Or.inl (List.mem_cons_of_mem e hb2)
    · rw [show scanInsert th (e :: rest) x = e :: scanInsert th rest x from by
        simp [scanInsert, hm]] at hb
      rcases List.mem_cons.mp hb with hbe | hb2
      · subst hbe
        exact Or.inl (List.mem_cons_self b rest)
      · rcases ih hb2 with h1 | h2 | ⟨e2, he2, hm2, hbe⟩
        · exact Or.inl (List.mem_cons_of_mem e h1)
        · exact Or.inr (Or.inl h2)
        · exact Or.inr (Or.inr ⟨e2, List.mem_cons_of_mem e he2, hm2, hbe⟩)

/-- Buckets listed later never match buckets listed earlier (as
incoming against existing). -/
def notMatchRel (th : ℚ) (a b : Lead) : Prop := matchesB th b a = false

theorem pairwise_scanInsert (th : ℚ) (U : List Lead) (x : Lead)
    (h : List.Pairwise (notMatchRel th) U) :
    List.Pairwise (notMatchRel th) (scanInsert th U x) := by
  induction U with
  | nil => simp [scanInsert]
  | cons e rest ih =>
    rcases List.pairwise_cons.mp h with ⟨h1, h2⟩
    by_cases hm : matchesB th x e = true
    · simp only [scanInsert, hm, if_true]
      refine List.pairwise_cons.mpr ⟨?_, h2⟩
      intro b hb
      show matchesB th b (mergeLeads e x) = false
      rw [matchesB_congr_existing th b (mergeLeads e x) e (leadKey_mergeLeads th x e hm)]
      exact h1 b hb
    · simp only [scanInsert, hm, if_false]
      refine List.pairwise_cons.mpr ⟨?_, ih h2⟩
      intro b hb
      rcases scanInsert_mem th rest x b hb with hbU | hbe | ⟨e2, he2, hm2, hbe⟩
      · exact h1 b hbU
      · subst hbe
        show matchesB th b e = false
        simpa using hm
      · subst hbe
        show matchesB th (mergeLeads e2 x) e = false
        rw [matchesB_congr_incoming th (mergeLeads e2 x) e2 e (leadKey_mergeLeads th x e2 hm2)]
        exact h1 e2 he2

theorem dedup_pairwise (th : ℚ) (l : List Lead) :
    List.Pairwise (notMatchRel th) (deduplicate l th) := by
  have gen : ∀ (m : List Lead) (V : List Lead), List.Pairwise (notMatchRel th) V →
      List.Pairwise (notMatchRel th) (List.foldl (scanInsert th) V m) := by
    intro m
    induction m with
    | nil => intro V h; simpa using h
    | cons x m ih =>
      intro V h
      rw [List.foldl_cons]
      exact ih _ (pairwise_scanInsert th V x h)
  simpa [deduplicate] using gen l [] List.Pairwise.nil

theorem foldl_scanInsert_fixed (th : ℚ) (U : List Lead) :
    ∀ V : List Lead, List.Pairwise (notMatchRel th) (V ++ U) →
      List.foldl (scanInsert th) V U = V ++ U := by
  induction U with
  | nil => intro V _; simp
  | cons x U ih =>
    intro V h
    have hx : ∀ e ∈ V, matchesB th x e = false := by
      intro e he
      exact (List.pairwise_append.mp h).2.2 e he x (List.mem_cons_self x U)
    rw [List.foldl_cons, scanInsert_of_no_match th V x hx]
    have h2 : List.Pairwise (notMatchRel th) ((V ++ [x]) ++ U) := by
      rwa [List.append_assoc, List.singleton_append]
    rw [ih (V ++ [x]) h2, List.append_assoc, List.singleton_append]

/-- C9: reconciliation is idempotent — deduplicating an already
deduplicated list (at the default 0.85 threshold) returns it
unchanged. -/
theorem deduplicate_idempotent (l : List Lead) :
    deduplicate (deduplicate l dedupThreshold) dedupThreshold = deduplicate l dedupThreshold := by
  have hp : List.Pairwise (notMatchRel dedupThreshold)
      (([] : List Lead) ++ deduplicate l dedupThreshold) := by
    simpa using dedup_pairwise dedupThreshold l
  simpa [deduplicate] using foldl_scanInsert_fixed dedupThreshold (deduplicate l dedupThreshold) [] hp

theorem matchesB_of_empty_norm (th : ℚ) (x e : Lead) (h : normalizeName x.name = "") :
    matchesB th x e = false := by
  simp [matchesB, h, isNameMatch_left_empty]

theorem foldl_scanInsert_empty_norm (th : ℚ) (m : List Lead) :
    ∀ V : List Lead, (∀ x ∈ m, normalizeName x.name = "") →
      List.foldl (scanInsert th) V m = V ++ m := by
  induction m with
  | nil => intro V _; simp
  | cons x m ih =>
    intro V h
    rw [List.foldl_cons, scanInsert_of_no_match th V x
      (fun e _ => matchesB_of_empty_norm th x e (h x (List.mem_cons_self x m))),
      ih (V ++ [x]) (fun y hy => h y (List.mem_cons_of_mem x hy)),
      List.append_assoc, List.singleton_append]

/-- C10: leads whose names normalize to the empty string are never
merged — `deduplicate` keeps every such lead as its own output entry
even when the location keys and original names coincide. -/
theorem dedup_empty_norm_names_never_merge (l : List Lead)
    (h : ∀ x ∈ l, normalizeName x.name = "") :
    deduplicate l dedupThreshold = l := by
  simpa [deduplicate] using foldl_scanInsert_empty_norm dedupThreshold l [] h

/-- Two identically named leads in the same place whose name consists
of a stop word only. -/
def gymA : Lead := { name := "Gym", city := "x", state := "VA", source := "s1" }

/-- See `gymA`. -/
def gymB : Lead := { name := "Gym", city := "x", state := "VA", source := "s2" }

/-- Witness for C10: two leads both named "Gym" (normalized name
empty), same city and state, identical name strings, are both kept. -/
theorem dedup_empty_norm_names_never_merge_witness :
    normalizeName gymA.name = "" ∧ normalizeName gymB.name = "" ∧
    deduplicate [gymA, gymB] dedupThreshold = [gymA, gymB] :=
  ⟨by decide, by decide,
   dedup_empty_norm_names_never_merge [gymA, gymB] (by decide)⟩

/-- C2 counterexample: `gymA` and `gymB` have exactly equal location
keys and exactly equal (empty) normalized names, yet `deduplicate`
keeps them as two separate entries — the empty-name guard of
`_is_name_match` refutes the matching rule as the claim states it. -/
theorem dedup_match_iff_cex :
    cityKey gymB.city = cityKey gymA.city ∧
    normalizeState gymB.state = normalizeState gymA.state ∧
    normalizeName gymB.name = normalizeName gymA.name ∧
    (deduplicate [gymA, gymB] dedupThreshold).length = 2 := by
  refine ⟨rfl, rfl, rfl, ?_⟩
  decide

/-- Containment as the specification words it: the shorter normalized
name, of length at least 4, is a prefix of the longer one. -/
def containsSpec (a b : String) : Prop :=
  4 ≤ min a.length b.length ∧
    (a.data.isPrefixOf b.data = true ∨ b.data.isPrefixOf a.data = true)

theorem isPrefixOf_length_le : ∀ x y : List Char, x.isPrefixOf y = true → x.length ≤ y.length := by
  intro x
  induction x with
  | nil => intro y _; simp
  | cons a as ih =>
    intro y h
    cases y with
    | nil => simp [List.isPrefixOf] at h
    | cons b bs =>
      simp only [List.isPrefixOf, Bool.and_eq_true] at h
      simpa using ih bs h.2

theorem isPrefixOf_eq_of_length : ∀ x y : List Char, x.isPrefixOf y = true →
    y.length ≤ x.length → x = y := by
  intro x
  induction x with
  | nil =>
    intro y _ hlen
    cases y with
    | nil => rfl
    | cons b bs => simp at hlen
  | cons a as ih =>
    intro y h hlen
    cases y with
    | nil => simp [List.isPrefixOf] at h
    | cons b bs =>
      simp only [List.isPrefixOf, Bool.and_eq_true, beq_iff_eq] at h
      rw [h.1, ih bs h.2 (by simpa using hlen)]

theorem isPrefixOf_self : ∀ x : List Char, x.isPrefixOf x = true := by
  intro x
  induction x with
  | nil => rfl
  | cons a as ih => simp [List.isPrefixOf, ih]

theorem strLength_eq_data (s : String) : s.length = s.data.length := rfl

theorem containCode_iff (a b : String) :
    ((decide (4 ≤ (if a.length ≤ b.length then (a, b) else (b, a)).1.length) &&
      (if a.length ≤ b.length then (a, b) else (b, a)).1.data.isPrefixOf
        (if a.length ≤ b.length then (a, b) else (b, a)).2.data) = true) ↔
    containsSpec a b := by
  by_cases hle : a.length ≤ b.length
  · rw [if_pos hle]
    simp only [Bool.and_eq_true, decide_eq_true_eq]
    constructor
    · rintro ⟨h4, hp⟩
      exact ⟨le_min h4 (h4.trans hle), Or.inl hp⟩
    · rintro ⟨h4, hp | hp⟩
      · exact ⟨(le_min_iff.mp h4).1, hp⟩
      · have heq : b.data = a.data := by
          refine isPrefixOf_eq_of_length b.data a.data hp ?_
          rw [← strLength_eq_data, ← strLength_eq_data]
          exact hle
        exact ⟨(le_min_iff.mp h4).1, heq ▸ isPrefixOf_self b.data⟩
  · rw [if_neg hle]
    simp only [Bool.and_eq_true, decide_eq_true_eq]
    have hlt : b.length ≤ a.length := le_of_not_le hle
    constructor
    · rintro ⟨h4, hp⟩
      exact ⟨le_min (h4.trans hlt) h4, Or.inr hp⟩
    · rintro ⟨h4, hp | hp⟩
      · have heq : a.data = b.data := by
          refine isPrefixOf_eq_of_length a.data b.data hp ?_
          rw [← strLength_eq_data, ← strLength_eq_data]
          exact hlt
        exact ⟨(le_min_iff.mp h4).2, heq ▸ isPrefixOf_self a.data⟩
      · exact ⟨(le_min_iff.mp h4).2, hp⟩

theorem isNameMatch_iff (a b : String) (th : ℚ) :
    isNameMatch a b th = true ↔
      (a ≠ "" ∧ b ≠ "" ∧ (a = b ∨ ratioQ a b ≥ th ∨ containsSpec a b)) := by
  by_cases ha : a = ""
  · simp [isNameMatch, ha]
  · by_cases hb : b = ""
    · simp [isNameMatch, hb]
    · have hguard : (a == "" || b == "") = false := by
        simp [ha, hb]
      by_cases hab : a = b
      · simp [isNameMatch, hguard, hab, ha, hb]
      · have habB : (a == b) = false := by simp [hab]
        by_cases hr : ratioQ a b ≥ th
        · simp [isNameMatch, hguard, habB, hr, ha, hb]
        · have hrB : decide (ratioQ a b ≥ th) = false := by simp [hr]
          have hcontain := containCode_iff a b
          simp only [isNameMatch, hguard, Bool.false_eq_true, if_false, habB, hrB]
          constructor
          · intro h
            exact ⟨ha, hb, Or.inr (Or.inr (hcontain.mp h))⟩
          · rintro ⟨_, _, heq | hrat | hcon⟩
            · exact absurd heq hab
            · exact absurd hrat hr
            · exact hcontain.mpr hcon

theorem matchesB_iff (th : ℚ) (x e : Lead) :
    matchesB th x e = true ↔
      (cityKey x.city = cityKey e.city ∧ normalizeState x.state = normalizeState e.state ∧
       normalizeName x.name ≠ "" ∧ normalizeName e.name ≠ "" ∧
       (normalizeName x.name = normalizeName e.name ∨
        ratioQ (normalizeName x.name) (normalizeName e.name) ≥ th ∨
        containsSpec (normalizeName x.name) (normalizeName e.name))) := by
  rw [matchesB]
  simp only [Bool.and_eq_true, beq_iff_eq, isNameMatch_iff, and_assoc]

theorem dedup_pair (th : ℚ) (a b : Lead) :
    deduplicate [a, b] th =
      if matchesB th b a = true then [mergeLeads a b] else [a, b] := by
  by_cases hm : matchesB th b a = true
  · simp [deduplicate, scanInsert, hm]
  · simp [deduplicate, scanInsert, hm]

/-- C2 amended: for two leads, `deduplicate` merges them into one
bucket iff their location keys are exactly equal and their normalized
names are both non-empty and exactly equal, at least 0.85-similar, or
containment-related (shorter of length at least 4 a prefix of the
longer).  The non-emptiness of both normalized names is the amendment
the counterexample forces. -/
theorem dedup_pair_merge_iff (a b : Lead) :
    (deduplicate [a, b] dedupThreshold).length = 1 ↔
      (cityKey b.city = cityKey a.city ∧ normalizeState b.state = normalizeState a.state ∧
       normalizeName b.name ≠ "" ∧ normalizeName a.name ≠ "" ∧
       (normalizeName b.name = normalizeName a.name ∨
        ratioQ (normalizeName b.name) (normalizeName a.name) ≥ dedupThreshold ∨
        containsSpec (normalizeName b.name) (normalizeName a.name))) := by
  rw [dedup_pair, ← matchesB_iff dedupThreshold b a]
  by_cases hm : matchesB dedupThreshold b a = true
  · simp [hm]
  · simp [hm]

/-- Witness for the amended C2: a concrete merging pair (ratio 6/7)
and the merged output length. -/
theorem dedup_pair_merge_iff_witness :
    (deduplicate [{ name := "mmm", city := "x", state := "VA", source := "s1" },
      { name := "pmmm", city := "x", state := "VA", source := "s2" }] dedupThreshold).length
      = 1 :=
  (dedup_pair_merge_iff { name := "mmm", city := "x", state := "VA", source := "s1" }
    { name := "pmmm", city := "x", state := "VA", source := "s2" }).mpr
    ⟨rfl, rfl, by decide, by decide, Or.inr (Or.inl (by decide))⟩

/-! ## Lemmas: merge provenance ordering -/

theorem charListLe_total : ∀ a b : List Char, charListLe a b = true ∨ charListLe b a = true := by
  intro a
  induction a with
  | nil => intro b; exact Or.inl rfl
  | cons x xs ih =>
    intro b
    cases b with
    | nil => exact Or.inr rfl
    | cons y ys =>
      by_cases h1 : x.toNat < y.toNat
      · exact Or.inl (by simp [charListLe, h1])
      · by_cases h2 : y.toNat < x.toNat
        · exact Or.inr (by simp [charListLe, h2, h1])
        · rcases ih ys with h | h
          · exact Or.inl (by simp [charListLe, h1, h2, h])
          · exact Or.inr (by simp [charListLe, h1, h2, h])

theorem charListLe_trans : ∀ a b c : List Char, charListLe a b = true →
    charListLe b c = true → charListLe a c = true := by
  intro a
  induction a with
  | nil => intro b c _ _; rfl
  | cons x xs ih =>
    intro b c hab hbc
    cases b with
    | nil => simp [charListLe] at hab
    | cons y ys =>
      cases c with
      | nil => simp [charListLe] at hbc
      | cons z zs =>
        simp only [charListLe] at hab hbc ⊢
        by_cases h1 : x.toNat < y.toNat
        · by_cases h2 : y.toNat < z.toNat
          · simp [show x.toNat < z.toNat by omega]
          · simp only [h2, if_false] at hbc
            by_cases h3 : z.toNat < y.toNat
            · simp [h3] at hbc
            · have : y.toNat = z.toNat := by omega
              simp [show x.toNat < z.toNat by omega]
        · simp only [h1, if_false] at hab
          by_cases h4 : y.toNat < x.toNat
          · simp [h4] at hab
          · have hxy : x.toNat = y.toNat := by omega
            simp only [h4, if_false] at hab
            by_cases h2 : y.toNat < z.toNat
            · simp [show x.toNat < z.toNat by omega]
            · simp only [h2, if_false] at hbc
              by_cases h3 : z.toNat < y.toNat
              · simp [h3] at hbc
              · have hyz : y.toNat = z.toNat := by omega
                simp only [h3, if_false] at hbc
                simp only [show ¬ x.toNat < z.toNat by omega, if_false,
                  show ¬ z.toNat < x.toNat by omega]
                exact ih ys zs hab hbc

theorem strLeB_total (a b : String) : strLeB a b = true ∨ strLeB b a = true :=
  charListLe_total a.data b.data

theorem strLeB_trans (a b c : String) (h1 : strLeB a b = true) (h2 : strLeB b c = true) :
    strLeB a c = true :=
  charListLe_trans a.data b.data c.data h1 h2

theorem insertTag_perm (x : String) : ∀ l : List String, (insertTag x l).Perm (x :: l) := by
  intro l
  induction l with
  | nil => exact List.Perm.refl _
  | cons y ys ih =>
    by_cases h : strLeB x y = true
    · simp only [insertTag, h, if_true]
      exact List.Perm.refl _
    · simp only [insertTag, h, if_false]
      exact (ih.cons y).trans (List.Perm.swap x y ys)

theorem sortTags_perm : ∀ l : List String, (sortTags l).Perm l := by
  intro l
  induction l with
  | nil => exact List.Perm.refl _
  | cons x xs ih =>
    exact (insertTag_perm x (sortTags xs)).trans (ih.cons x)

theorem insertTag_sorted (x : String) : ∀ l : List String,
    List.Pairwise (fun u v => strLeB u v = true) l →
    List.Pairwise (fun u v => strLeB u v = true) (insertTag x l) := by
  intro l
  induction l with
  | nil => intro _; simp [insertTag]
  | cons y ys ih =>
    intro h
    rcases List.pairwise_cons.mp h with ⟨h1, h2⟩
    by_cases hxy : strLeB x y = true
    · simp only [insertTag, hxy, if_true]
      refine List.pairwise_cons.mpr ⟨?_, h⟩
      intro b hb
      rcases List.mem_cons.mp hb with hbe | hb2
      · exact hbe ▸ hxy
      · exact strLeB_trans x y b hxy (h1 b hb2)
    · simp only [insertTag, hxy, if_false]
      refine List.pairwise_cons.mpr ⟨?_, ih h2⟩
      intro b hb
      have hb3 := (insertTag_perm x ys).mem_iff.mp hb
      rcases List.mem_cons.mp hb3 with hbe | hb2
      · subst hbe
        rcases strLeB_total y b with hyb | hby
        · exact hyb
        · exact absurd hby hxy
      · exact h1 b hb2

theorem sortTags_sorted : ∀ l : List String,
    List.Pairwise (fun u v => strLeB u v = true) (sortTags l) := by
  intro l
  induction l with
  | nil => simp [sortTags]
  | cons x xs ih => exact insertTag_sorted x (sortTags xs) ih

theorem unionTags_nodup (a b : String) : (unionTags a b).Nodup :=
  ((sortTags_perm ((splitTags a ++ splitTags b).dedup)).nodup_iff).mpr
    (List.nodup_dedup (splitTags a ++ splitTags b))

theorem unionTags_mem (a b : String) (t : String) :
    t ∈ unionTags a b ↔ (t ∈ splitTags a ∨ t ∈ splitTags b) := by
  rw [unionTags, (sortTags_perm ((splitTags a ++ splitTags b).dedup)).mem_iff,
    List.mem_dedup, List.mem_append]

theorem scanInsert_first_match (th : ℚ) (U₁ : List Lead) : ∀ (U₂ : List Lead) (e x : Lead),
    (∀ q ∈ U₁, matchesB th x q = false) → matchesB th x e = true →
    scanInsert th (U₁ ++ e :: U₂) x = U₁ ++ mergeLeads e x :: U₂ := by
  induction U₁ with
  | nil => intro U₂ e x _ hm; simp [scanInsert, hm]
  | cons q U₁ ih =>
    intro U₂ e x hq hm
    have hq0 : matchesB th x q = false := hq q (List.mem_cons_self q U₁)
    simp only [List.cons_append, scanInsert, hq0, Bool.false_eq_true, if_false,
      List.cons.injEq, true_and]
    exact ih U₂ e x (fun r hr => hq r (List.mem_cons_of_mem q hr)) hm

/-- C3: `deduplicate` scans buckets in insertion order, merges the
incoming lead into the first matching bucket (on every field the
buckets non-empty value wins, otherwise the incoming leads value is
taken; the provenance is the sorted duplicate-free union of both tag
sets) and stops; when no bucket matches, the lead is appended
unchanged. -/
theorem dedup_insert_and_merge_spec :
    (∀ (U₁ U₂ : List Lead) (e x : Lead),
      (∀ q ∈ U₁, matchesB dedupThreshold x q = false) →
      matchesB dedupThreshold x e = true →
      scanInsert dedupThreshold (U₁ ++ e :: U₂) x = U₁ ++ mergeLeads e x :: U₂) ∧
    (∀ (U : List Lead) (x : Lead),
      (∀ q ∈ U, matchesB dedupThreshold x q = false) →
      scanInsert dedupThreshold U x = U ++ [x]) ∧
    (∀ e n : Lead,
      (mergeLeads e n).name = (if e.name = "" then n.name else e.name) ∧
      (mergeLeads e n).address = (if e.address = "" then n.address else e.address) ∧
      (mergeLeads e n).city = (if e.city = "" then n.city else e.city) ∧
      (mergeLeads e n).state = (if e.state = "" then n.state else e.state) ∧
      (mergeLeads e n).phone = (if e.phone = "" then n.phone else e.phone) ∧
      (mergeLeads e n).website = (if e.website = "" then n.website else e.website) ∧
      (mergeLeads e n).type = (if e.type = "" then n.type else e.type)) ∧
    (∀ e n : Lead,
      (mergeLeads e n).source = String.intercalate ", " (unionTags e.source n.source) ∧
      List.Pairwise (fun u v => strLeB u v = true) (unionTags e.source n.source) ∧
      (unionTags e.source n.source).Nodup ∧
      (∀ t, t ∈ unionTags e.source n.source ↔
        (t ∈ splitTags e.source ∨ t ∈ splitTags n.source))) ∧
    (∀ l : List Lead, deduplicate l dedupThreshold =
      l.foldl (scanInsert dedupThreshold) []) := by
  refine ⟨scanInsert_first_match dedupThreshold, scanInsert_of_no_match dedupThreshold,
    fun e n => ⟨rfl, rfl, rfl, rfl, rfl, rfl, rfl⟩,
    fun e n => ⟨rfl, sortTags_sorted _, unionTags_nodup e.source n.source,
      unionTags_mem e.source n.source⟩,
    fun l => rfl⟩

/-- Witness for C3: inserting a concrete matching lead merges it into
the first (only) bucket. -/
theorem dedup_insert_and_merge_spec_witness :
    scanInsert dedupThreshold [{ name := "mmm", city := "x", state := "VA", source := "s1" }]
      { name := "pmmm", city := "x", state := "VA", source := "s2" } =
      [mergeLeads { name := "mmm", city := "x", state := "VA", source := "s1" }
        { name := "pmmm", city := "x", state := "VA", source := "s2" }] :=
  dedup_insert_and_merge_spec.1 [] []
    { name := "mmm", city := "x", state := "VA", source := "s1" }
    { name := "pmmm", city := "x", state := "VA", source := "s2" }
    (fun q hq => absurd hq (List.not_mem_nil q)) (by decide)

/-! ## Lemmas: order dependence of reconciliation

The duplicate relation is not transitive (a name can be 0.85-similar
to each of two names that are not similar to each other), so which
permutation of the input arrives first decides how many buckets
survive.  The counterexample below exhibits two permutations of the
same three leads with 1 and 2 output buckets.  When the duplicate
relation restricted to the input is symmetric and transitive, the
bucket count is the same for every permutation; this is proved through
`countNew`, which counts the leads that match nothing processed before
them. -/

/-- Three leads in one place whose normalized names chain:
"pmmm" ~ "mmm" (ratio 6/7) and "mmm" ~ "mmmq" (ratio 6/7) but
"pmmm" and "mmmq" are not duplicates (ratio 3/4, no containment). -/
def leadM : Lead := { name := "mmm", city := "x", state := "VA", source := "s1" }

/-- See `leadM`. -/
def leadP : Lead := { name := "pmmm", city := "x", state := "VA", source := "s2" }

/-- See `leadM`. -/
def leadQ : Lead := { name := "mmmq", city := "x", state := "VA", source := "s3" }

/-- C1 counterexample: two permutations of the same three leads give a
different number of merged buckets (1 versus 2), so the reconciled
collection is not permutation-invariant. -/
theorem dedup_order_dependent_cex :
    ([leadM, leadP, leadQ].Perm [leadP, leadQ, leadM]) ∧
    (deduplicate [leadM, leadP, leadQ] dedupThreshold).length = 1 ∧
    (deduplicate [leadP, leadQ, leadM] dedupThreshold).length = 2 :=
  ⟨by decide, by decide, by decide⟩

/-- Bool helper: a boolean that is not true is false. -/
theorem bool_eq_false {b : Bool} (h : ¬ b = true) : b = false := by
  cases b
  · rfl
  · exact absurd rfl h

/-- Number of leads in the second list that match (as incoming against
existing) no lead of `done` and no earlier lead of the list itself. -/
def countNew (th : ℚ) : List Lead → List Lead → Nat
  | _, [] => 0
  | done, x :: rest =>
    (if done.all (fun e => !matchesB th x e) then 1 else 0) + countNew th (done ++ [x]) rest

theorem forall2_mem_right {R : Lead → Lead → Prop} :
    ∀ {U cs : List Lead}, List.Forall₂ R U cs → ∀ {c}, c ∈ cs → ∃ e ∈ U, R e c := by
  intro U cs h
  induction h with
  | nil => intro c hc; exact absurd hc (List.not_mem_nil c)
  | cons hr _ ih =>
    intro c hc
    rcases List.mem_cons.mp hc with hce | hc2
    · exact ⟨_, List.mem_cons_self _ _, hce ▸ hr⟩
    · rcases ih hc2 with ⟨e, he, her⟩
      exact ⟨e, List.mem_cons_of_mem _ he, her⟩

theorem forall2_append_single {R : Lead → Lead → Prop} :
    ∀ {U cs : List Lead}, List.Forall₂ R U cs → ∀ {x c}, R x c →
      List.Forall₂ R (U ++ [x]) (cs ++ [c]) := by
  intro U cs h
  induction h with
  | nil => intro x c hr; exact List.Forall₂.cons hr List.Forall₂.nil
  | cons hr _ ih => intro x c hxc; exact List.Forall₂.cons hr (ih hxc)

theorem scanInsert_keys (th : ℚ) (x : Lead) :
    ∀ {U cs : List Lead}, List.Forall₂ (fun e c => leadKey e = leadKey c) U cs →
      (∃ e ∈ U, matchesB th x e = true) →
      List.Forall₂ (fun e c => leadKey e = leadKey c) (scanInsert th U x) cs ∧
        ∃ c ∈ cs, matchesB th x c = true := by
  intro U cs h
  induction h with
  | nil =>
    rintro ⟨e, he, _⟩
    exact absurd he (List.not_mem_nil e)
  | @cons e c U2 cs2 hr ht ih =>
    rintro ⟨e2, he2, hm2⟩
    by_cases hm : matchesB th x e = true
    · refine ⟨?_, c, List.mem_cons_self c cs2, ?_⟩
      · rw [show scanInsert th (e :: U2) x = mergeLeads e x :: U2 from by simp [scanInsert, hm]]
        exact List.Forall₂.cons ((leadKey_mergeLeads th x e hm).trans hr) ht
      · rw [← matchesB_congr_existing th x e c hr]
        exact hm
    · have he3 : e2 ∈ U2 := by
        rcases List.mem_cons.mp he2 with hee | h2
        · exact absurd (hee ▸ hm2) hm
        · exact h2
      rcases ih ⟨e2, he3, hm2⟩ with ⟨hf, c2, hc2, hmc2⟩
      refine ⟨?_, c2, List.mem_cons_of_mem c hc2, hmc2⟩
      rw [show scanInsert th (e :: U2) x = e :: scanInsert th U2 x from by simp [scanInsert, hm]]
      exact List.Forall₂.cons hr hf

theorem foldl_scanInsert_length (th : ℚ) (P : Lead → Prop)
    (htrans : ∀ x y z, P x → P y → P z → matchesB th x y = true → matchesB th y z = true →
      matchesB th x z = true) :
    ∀ rest : List Lead, (∀ x ∈ rest, P x) →
    ∀ done U cs : List Lead,
      (∀ z ∈ done, P z) →
      List.Forall₂ (fun e c => leadKey e = leadKey c) U cs →
      (∀ c ∈ cs, c ∈ done) →
      (∀ z ∈ done, z ∈ cs ∨ ∃ c ∈ cs, matchesB th z c = true) →
      (List.foldl (scanInsert th) U rest).length = U.length + countNew th done rest := by
  intro rest
  induction rest with
  | nil =>
    intro _ done U cs _ _ _ _
    simp [countNew]
  | cons x rest ih =>
    intro hP done U cs hPdone hf hcs hcov
    have hPx : P x := hP x (List.mem_cons_self x rest)
    have hPrest : ∀ y ∈ rest, P y := fun y hy => hP y (List.mem_cons_of_mem x hy)
    rw [List.foldl_cons]
    by_cases hm : ∃ e ∈ U, matchesB th x e = true
    · obtain ⟨hf2, c0, hc0, hmc0⟩ := scanInsert_keys th x hf hm
      have hflag : (done.all fun e => !matchesB th x e) = false := by
        apply bool_eq_false
        intro hall
        have h2 := List.all_eq_true.mp hall c0 (hcs c0 hc0)
        rw [hmc0] at h2
        simp at h2
      have hstep := ih hPrest (done ++ [x]) (scanInsert th U x) cs
        (by
          intro z hz
          rcases List.mem_append.mp hz with h1 | h2
          · exact hPdone z h1
          · rw [List.mem_singleton.mp h2]; exact hPx)
        hf2
        (fun c hc => List.mem_append_left [x] (hcs c hc))
        (by
          intro z hz
          rcases List.mem_append.mp hz with h1 | h2
          · exact hcov z h1
          · rw [List.mem_singleton.mp h2]
            exact Or.inr ⟨c0, hc0, hmc0⟩)
      have hlen : (scanInsert th U x).length = U.length := by
        rw [hf2.length_eq, ← hf.length_eq]
      rw [hstep, hlen, countNew, hflag]
      simp
    · have hm2 : ∀ e ∈ U, matchesB th x e = false := by
        intro e he
        exact bool_eq_false (fun hc => hm ⟨e, he, hc⟩)
      have hflag : (done.all fun e => !matchesB th x e) = true := by
        rw [List.all_eq_true]
        intro z hz
        by_cases hxz : matchesB th x z = true
        · exfalso
          rcases hcov z hz with hzcs | ⟨c, hc, hzc⟩
          · obtain ⟨e, heU, hek⟩ := forall2_mem_right hf hzcs
            rw [← matchesB_congr_existing th x e z hek] at hxz
            rw [hm2 e heU] at hxz
            exact Bool.false_ne_true hxz
          · have hxc : matchesB th x c = true :=
              htrans x z c hPx (hPdone z hz) (hPdone c (hcs c hc)) hxz hzc
            obtain ⟨e, heU, hek⟩ := forall2_mem_right hf hc
            rw [← matchesB_congr_existing th x e c hek] at hxc
            rw [hm2 e heU] at hxc
            exact Bool.false_ne_true hxc
        · simp [bool_eq_false hxz]
      rw [scanInsert_of_no_match th U x hm2]
      have hstep := ih hPrest (done ++ [x]) (U ++ [x]) (cs ++ [x])
        (by
          intro z hz
          rcases List.mem_append.mp hz with h1 | h2
          · exact hPdone z h1
          · rw [List.mem_singleton.mp h2]; exact hPx)
        (forall2_append_single hf rfl)
        (by
          intro c hc
          rcases List.mem_append.mp hc with h1 | h2
          · exact List.mem_append_left [x] (hcs c h1)
          · exact List.mem_append_right done h2)
        (by
          intro z hz
          rcases List.mem_append.mp hz with h1 | h2
          · rcases hcov z h1 with hzcs | ⟨c, hc, hzc⟩
            · exact Or.inl (List.mem_append_left [x] hzcs)
            · exact Or.inr ⟨c, List.mem_append_left [x] hc, hzc⟩
          · exact Or.inl (List.mem_append_right cs h2))
      rw [hstep, countNew, hflag]
      simp only [List.length_append, List.length_singleton, if_true]
      omega

theorem all_congr_fn (d : List Lead) (p q : Lead → Bool) (h : ∀ z ∈ d, p z = q z) :
    d.all p = d.all q := by
  induction d with
  | nil => rfl
  | cons z d ih =>
    rw [List.all_cons, List.all_cons, h z (List.mem_cons_self z d),
      ih (fun y hy => h y (List.mem_cons_of_mem z hy))]

theorem all_congr_of_mem_iff (p : Lead → Bool) (d₁ d₂ : List Lead)
    (h : ∀ z, z ∈ d₁ ↔ z ∈ d₂) : d₁.all p = d₂.all p := by
  by_cases h1 : d₁.all p = true
  · rw [h1]
    symm
    rw [List.all_eq_true]
    exact fun z hz => List.all_eq_true.mp h1 z ((h z).mpr hz)
  · have h2 : ¬ d₂.all p = true := by
      intro hc
      exact h1 (List.all_eq_true.mpr (fun z hz => List.all_eq_true.mp hc z ((h z).mp hz)))
    rw [bool_eq_false h1, bool_eq_false h2]

theorem countNew_congr_done (th : ℚ) : ∀ (l d₁ d₂ : List Lead),
    (∀ z, z ∈ d₁ ↔ z ∈ d₂) → countNew th d₁ l = countNew th d₂ l := by
  intro l
  induction l with
  | nil => intro _ _ _; rfl
  | cons x rest ih =>
    intro d₁ d₂ h
    simp only [countNew]
    rw [all_congr_of_mem_iff _ d₁ d₂ h,
      ih (d₁ ++ [x]) (d₂ ++ [x]) (by intro z; simp [List.mem_append, h z])]

theorem countNew_perm (th : ℚ) (P : Lead → Prop)
    (hsym : ∀ x y, P x → P y → matchesB th x y = matchesB th y x)
    (htrans : ∀ x y z, P x → P y → P z → matchesB th x y = true → matchesB th y z = true →
      matchesB th x z = true) :
    ∀ {l l' : List Lead}, l.Perm l' → ∀ done, (∀ z ∈ done, P z) → (∀ x ∈ l, P x) →
      countNew th done l = countNew th done l' := by
  intro l l' h
  induction h with
  | nil => intro _ _ _; rfl
  | @cons z t t' _ ih =>
    intro done hd hl
    simp only [countNew]
    congr 1
    exact ih (done ++ [z])
      (by
        intro w hw
        rcases List.mem_append.mp hw with h1 | h2
        · exact hd w h1
        · rw [List.mem_singleton.mp h2]; exact hl z (List.mem_cons_self z t))
      (fun y hy => hl y (List.mem_cons_of_mem z hy))
  | @swap x y t =>
    intro done hd hl
    have hPx : P x := hl x (by simp)
    have hPy : P y := hl y (by simp)
    simp only [countNew]
    have htail : countNew th ((done ++ [y]) ++ [x]) t = countNew th ((done ++ [x]) ++ [y]) t := by
      apply countNew_congr_done
      intro z
      simp only [List.mem_append, List.mem_singleton]
      tauto
    rw [htail]
    have hay : ((done ++ [y]).all fun e => !matchesB th x e)
        = ((done.all fun e => !matchesB th x e) && !matchesB th x y) := by
      simp [List.all_append]
    have hax : ((done ++ [x]).all fun e => !matchesB th y e)
        = ((done.all fun e => !matchesB th y e) && !matchesB th y x) := by
      simp [List.all_append]
    rw [hay, hax]
    have hsymxy : matchesB th y x = matchesB th x y := hsym y x hPy hPx
    by_cases hmt : matchesB th x y = true
    · have hfeq : (done.all fun e => !matchesB th x e) = (done.all fun e => !matchesB th y e) := by
        apply all_congr_fn
        intro z hz
        have hPz := hd z hz
        by_cases hxz : matchesB th x z = true
        · rw [hxz, htrans y x z hPy hPx hPz (by rw [hsymxy]; exact hmt) hxz]
        · by_cases hyz : matchesB th y z = true
          · exact absurd (htrans x y z hPx hPy hPz hmt hyz) hxz
          · rw [bool_eq_false hxz, bool_eq_false hyz]
      rw [hfeq, hmt, hsymxy]
      simp [hmt]
    · have hmf : matchesB th x y = false := bool_eq_false hmt
      rw [hmf, hsymxy, hmf]
      simp only [Bool.not_false, Bool.and_true]
      omega
  | @trans l₁ l₂ l₃ h1 _ ih1 ih2 =>
    intro done hd hl
    exact (ih1 done hd hl).trans
      (ih2 done hd (fun x hx => hl x (h1.mem_iff.mpr hx)))

theorem dedup_length_eq_countNew (th : ℚ) (P : Lead → Prop)
    (htrans : ∀ x y z, P x → P y → P z → matchesB th x y = true → matchesB th y z = true →
      matchesB th x z = true)
    (l : List Lead) (hl : ∀ x ∈ l, P x) :
    (deduplicate l th).length = countNew th [] l := by
  have h := foldl_scanInsert_length th P htrans l hl [] [] []
    (by intro z hz; exact absurd hz (List.not_mem_nil z))
    List.Forall₂.nil
    (by intro c hc; exact absurd hc (List.not_mem_nil c))
    (by intro z hz; exact absurd hz (List.not_mem_nil z))
  simpa [deduplicate] using h

/-- C1 amended: reconciliation is not order-independent in general
(see `dedup_order_dependent_cex`: even the number of output leads can
change under a permutation, because the duplicate relation is not
transitive).  When the duplicate relation restricted to the input
leads is symmetric and transitive, the number of output leads is the
same for every permutation of the input. -/
theorem dedup_perm_length_invariant_of_per (l l' : List Lead) (hperm : l.Perm l')
    (hsym : ∀ x ∈ l, ∀ y ∈ l,
      matchesB dedupThreshold x y = matchesB dedupThreshold y x)
    (htrans : ∀ x ∈ l, ∀ y ∈ l, ∀ z ∈ l,
      matchesB dedupThreshold x y = true → matchesB dedupThreshold y z = true →
      matchesB dedupThreshold x z = true) :
    (deduplicate l dedupThreshold).length = (deduplicate l' dedupThreshold).length := by
  have htr : ∀ x y z, x ∈ l → y ∈ l → z ∈ l →
      matchesB dedupThreshold x y = true → matchesB dedupThreshold y z = true →
      matchesB dedupThreshold x z = true :=
    fun x y z hx hy hz => htrans x hx y hy z hz
  have hA := dedup_length_eq_countNew dedupThreshold (· ∈ l) htr l (fun _ hx => hx)
  have hA2 := dedup_length_eq_countNew dedupThreshold (· ∈ l) htr l'
    (fun x hx => hperm.mem_iff.mpr hx)
  have hB := countNew_perm dedupThreshold (· ∈ l)
    (fun x y hx hy => hsym x hx y hy) htr hperm []
    (by intro z hz; exact absurd hz (List.not_mem_nil z))
    (fun _ hx => hx)
  rw [hA, hA2, hB]

/-- Witness for the amended C1 at a concrete two-lead input on which
the duplicate relation is symmetric and transitive. -/
theorem dedup_perm_length_invariant_of_per_witness :
    (deduplicate [leadM, leadP] dedupThreshold).length =
      (deduplicate [leadP, leadM] dedupThreshold).length :=
  dedup_perm_length_invariant_of_per [leadM, leadP] [leadP, leadM]
    (by decide) (by decide) (by decide)
